import Mathlib

/-!
Shallow embedding of the arena search front-end's result cache
(`src/arena-cache.ts`) and of the grouping / classification / sorting
logic of the search page script, together with proofs of the spec's
testable properties.

Modelling conventions:
* JavaScript strings are Lean `String`s; helper functions work on the
  underlying `List Char` so that every definition reduces in the kernel.
* JS `undefined` / absent / otherwise-falsy fields are `Option.none`
  (a `Some ""` is never produced by the embedded code paths).
* `Math.random()` is modelled by an explicit oracle argument: each call
  site receives an externally chosen string (the decimal rendering of the
  random number).  Two distinct invocations of the program receive
  independent oracles.
* `localStorage` is an association list from keys to stored values; a
  stored value either parses as a serialized search cache or is an
  arbitrary string on which `JSON.parse` fails (or which is not a cache).
* `Date.now()` is an explicit `now : Nat` argument.
-/

namespace Arena

/-! ### Small string library (kernel-reducible) -/

/-- `p` is a prefix of the characters of `s` (JS `String.startsWith`). -/
def strStarts (s p : String) : Bool :=
  p.data.isPrefixOf s.data

/-- `p` is a suffix of the characters of `s` (JS `String.endsWith`). -/
def strEnds (s p : String) : Bool :=
  p.data.isSuffixOf s.data

/-- Drop the first `n` characters (JS `String.substring(n)`). -/
def strDrop (s : String) (n : Nat) : String :=
  ⟨s.data.drop n⟩

/-- Drop the last `n` characters (JS `slice(0, -n)`). -/
def strDropRight (s : String) (n : Nat) : String :=
  ⟨(s.data.reverse.drop n).reverse⟩

/-- ASCII lower-casing (JS `toLowerCase` on the character data). -/
def strLower (s : String) : String :=
  ⟨s.data.map Char.toLower⟩

/-- Characters before the first `/` (JS `split('/')[0]`). -/
def beforeSlash (s : String) : String :=
  ⟨s.data.takeWhile (fun c => !(c == '/'))⟩

/-! ### JS value helpers -/

/-- JS `a || b` on two possibly-absent strings: the first truthy operand. -/
def jsOr (a b : Option String) : Option String :=
  match a with
  | some x => some x
  | none => b

/-- Template-literal rendering of a possibly-absent string
(`undefined` prints as the string "undefined"). -/
def jsShow (o : Option String) : String :=
  match o with
  | some x => x
  | none => "undefined"

/-- JS `x || ''`. -/
def orEmpty (o : Option String) : String :=
  match o with
  | some x => x
  | none => ""

/-! ### Data model -/

/-- One item of an API response (`result` in the TS source): the fields the
cache, grouping and display code reads from the loosely-typed payload.
`none` models a JS-falsy field. -/
structure Result where
  typename : String
  id : Option String
  slug : Option String
  href : Option String
  title : Option String
  source_url : Option String
  sourceUrlNested : Option String
  image_url : Option String
  connections : Option (List String)
deriving DecidableEq, Repr

/-- `CachedBlock` of `arena-cache.ts`: the per-item record stored in a
search cache. -/
structure CachedBlock where
  id : String
  typename : String
  href : String
  title : Option String
  sourceUrl : Option String
  imageUrl : Option String
  connections : List String
  raw : Result
deriving DecidableEq, Repr

/-- The deduplicating block map: a JS `Map` as an insertion-ordered
association list. -/
abbrev Blocks := List (String × CachedBlock)

/-- `SearchCache` of `arena-cache.ts`. -/
structure SearchCache where
  url : String
  totalFromAPI : Int
  lastPage : Nat
  perPage : Nat
  blocks : Blocks
  timestamp : Nat
deriving DecidableEq, Repr

/-- An API response `{ total, results }`. -/
structure ApiResponse where
  total : Int
  results : List Result
deriving DecidableEq, Repr

/-- A value held by the durable key/value store: either a string that
`JSON.parse`s into a serialized search cache (stored entry-list form equals
the in-memory association list), or a string on which parsing to a cache
fails (covers the auth token, UI preferences and corrupted entries). -/
inductive StoreVal where
  | ok (c : SearchCache)
  | bad (s : String)
deriving DecidableEq, Repr

/-- The durable store (`localStorage`): keys are unique; list order models
the implementation-defined `localStorage.key(i)` enumeration order. -/
abbrev Store := List (String × StoreVal)

/-- `localStorage.getItem`. -/
def storeGet (st : Store) (key : String) : Option StoreVal :=
  match st with
  | [] => none
  | (k, v) :: rest => if k = key then some v else storeGet rest key

/-- `localStorage.setItem`: replaces in place or appends. -/
def storeSet (st : Store) (key : String) (v : StoreVal) : Store :=
  match st with
  | [] => [(key, v)]
  | (k, w) :: rest =>
      if k = key then (k, v) :: rest else (k, w) :: storeSet rest key v

/-- `localStorage.removeItem`. -/
def storeRemove (st : Store) (key : String) : Store :=
  match st with
  | [] => []
  | (k, w) :: rest =>
      if k = key then storeRemove rest key else (k, w) :: storeRemove rest key

/-! ### arena-cache.ts -/

/-- `CACHE_KEY_PREFIX = 'arena_search_v2_'`. -/
def cacheKeyPre : String := "arena_search_v2_"

/-- `normalizeSearchUrl`: lower-case, strip a leading `www.`, strip one
trailing `/`. -/
def normalizeSearchUrl (url : String) : String :=
  let s := strLower url
  let s := if strStarts s "www." then strDrop s 4 else s
  if strEnds s "/" then strDropRight s 1 else s

/-- Scan for the first position where `/blocks/` is followed by at least one
digit, returning the maximal digit run there (the regex
`/\/blocks\/(\d+)/`; on a failed attempt the engine advances one
character). -/
def findBlocksId : List Char → Option (List Char)
  | [] => none
  | c :: rest =>
      if ("/blocks/".data.isPrefixOf (c :: rest)) then
        let ds := ((c :: rest).drop 8).takeWhile Char.isDigit
        if ds.isEmpty then findBlocksId rest else some ds
      else findBlocksId rest

/-- `extractBlockId`: digits after `/blocks/` in the href, else `''`
(also for a falsy href). -/
def extractBlockId (href : String) : String :=
  match findBlocksId href.data with
  | some ds => ⟨ds⟩
  | none => ""

/-- The stable-identity computation of `addPageToCache` (lines 99–110):
channels get `channel:` + (`id || slug`); other items get the extracted
block id, falling back to `typename:` + (`id || Math.random()`).  `rand` is
the oracle value this call site would draw from `Math.random()`. -/
def computeBlockId (r : Result) (rand : String) : String :=
  if r.typename == "Channel" then
    "channel:" ++ jsShow (jsOr r.id r.slug)
  else if extractBlockId (orEmpty r.href) == "" then
    r.typename ++ ":" ++ (match r.id with | some x => x | none => rand)
  else extractBlockId (orEmpty r.href)

/-- The `CachedBlock` stored for a result (lines 116–125). -/
def mkCachedBlock (r : Result) (blockId : String) : CachedBlock :=
  { id := blockId
    typename := r.typename
    href := orEmpty r.href
    title := r.title
    sourceUrl := jsOr r.source_url r.sourceUrlNested
    imageUrl := r.image_url
    connections := (match r.connections with | some cs => cs | none => [])
    raw := r }

/-- JS `Map.has`. -/
def mapHas (m : Blocks) (k : String) : Bool :=
  match m with
  | [] => false
  | (k', _) :: rest => k' = k || mapHas rest k

/-- JS `Map.set`: update in place if the key exists, else append. -/
def mapSet (m : Blocks) (k : String) (v : CachedBlock) : Blocks :=
  match m with
  | [] => [(k, v)]
  | (k', v') :: rest =>
      if k' = k then (k', v) :: rest else (k', v') :: mapSet rest k v

/-- JS `new Map(entries)`: insert the entries left to right. -/
def mapFromEntries (entries : Blocks) : Blocks :=
  entries.foldl (fun m p => mapSet m p.1 p.2) []

/-- The result-processing loop of `addPageToCache` (lines 99–126), with each
result paired with the `Math.random()` value its fallback would draw: skip
an already-cached id, otherwise store the block. -/
def addResultsAux : Blocks → List (Result × String) → Blocks
  | blocks, [] => blocks
  | blocks, (r, s) :: rest =>
      let bid := computeBlockId r s
      if mapHas blocks bid then addResultsAux blocks rest
      else addResultsAux (mapSet blocks bid (mkCachedBlock r bid)) rest

/-- Pair each result with its potential `Math.random()` draw, indexing the
oracle by result position. -/
def attachRands : List Result → (Nat → String) → Nat → List (Result × String)
  | [], _, _ => []
  | r :: rs, f, i => (r, f i) :: attachRands rs f (i + 1)

/-- `getSearchCache`: read and deserialize, `null` on a missing entry or a
parse failure; the stored entry list is rebuilt into a `Map`. -/
def getSearchCache (store : Store) (url : String) : Option SearchCache :=
  let key := cacheKeyPre ++ normalizeSearchUrl url
  match storeGet store key with
  | some (StoreVal.ok c) => some { c with blocks := mapFromEntries c.blocks }
  | _ => none

/-- The scan loop of `pruneOldestCaches` (lines 199–213): iterate the store
by index; collect `(key, timestamp)` for every prefixed entry that parses
(a missing `timestamp` is JS-falsy and collects as 0, covered by `Nat`);
remove a prefixed entry that fails to parse — the removal shifts the
indices, so the loop then skips the following entry; a falsy (empty) stored
string is skipped without removal.  Returns the collected list and the keys
removed. -/
def scanCaches : List (String × StoreVal) → (List (String × Nat)) × List String
  | [] => ([], [])
  | (k, v) :: rest =>
      if strStarts k cacheKeyPre then
        match v with
        | StoreVal.ok c =>
            let (acc, rem) := scanCaches rest
            ((k, c.timestamp) :: acc, rem)
        | StoreVal.bad s =>
            if s == "" then scanCaches rest
            else
              match rest with
              | [] => ([], [k])
              | _ :: rest' =>
                  let (acc, rem) := scanCaches rest'
                  (acc, k :: rem)
      else scanCaches rest

/-- Stable insertion into a sorted list: the inserted element goes before
the first element it compares `le` to (so an element earlier in the input
stays before later equal-ranked ones). -/
def stableInsert (le : α → α → Bool) (x : α) : List α → List α
  | [] => [x]
  | y :: ys => if le x y then x :: y :: ys else y :: stableInsert le x ys

/-- Stable sort (insertion sort).  JS `Array.prototype.sort` with a
consistent comparator is required to be stable, which determines its output
uniquely, so any stable sort models it faithfully. -/
def stableSort (le : α → α → Bool) : List α → List α
  | [] => []
  | x :: xs => stableInsert le x (stableSort le xs)

/-- Comparator `(a, b) => a.timestamp - b.timestamp` of `pruneOldestCaches`
as a boolean order. -/
def tsLe (a b : String × Nat) : Bool := a.2 ≤ b.2

/-- The cache keys collected by the prune scan, sorted oldest first. -/
def sortedCacheKeys (store : Store) : List (String × Nat) :=
  stableSort tsLe (scanCaches store).1

/-- `Math.ceil(n / 2)`. -/
def halfUp (n : Nat) : Nat := (n + 1) / 2

/-- The keys `pruneOldestCaches` evicts: the oldest half of the collected
caches. -/
def evictedCacheKeys (store : Store) : List (String × Nat) :=
  (sortedCacheKeys store).take (halfUp (sortedCacheKeys store).length)

/-- `pruneOldestCaches`: remove invalid prefixed entries found during the
scan, then remove the least-recently-updated half of the parsed prefixed
entries. -/
def pruneOldestCaches (store : Store) : Store :=
  (evictedCacheKeys store).foldl (fun st p => storeRemove st p.1)
    ((scanCaches store).2.foldl storeRemove store)

/-- The in-memory merge performed by `addPageToCache` (lines 82–130): read
or seed the cache, take the response's total, fold in the results with
dedup, bump `lastPage` to `max lastPage page`, refresh the timestamp. -/
def mergePage (store : Store) (url : String) (page perPage : Nat)
    (resp : ApiResponse) (rand : Nat → String) (now : Nat) : SearchCache :=
  let normalizedUrl := normalizeSearchUrl url
  let cache0 :=
    match getSearchCache store url with
    | some c => c
    | none =>
        { url := normalizedUrl, totalFromAPI := resp.total, lastPage := 0
          perPage := perPage, blocks := [], timestamp := now }
  { cache0 with
      totalFromAPI := resp.total
      blocks := addResultsAux cache0.blocks (attachRands resp.results rand 0)
      lastPage := max cache0.lastPage page
      timestamp := now }

/-- `addPageToCache` (lines 72–155).  `fail1` / `fail2` say whether the
first and the retried `localStorage.setItem` throw `QuotaExceeded`; the
function catches both (the second failure is only logged), so it always
returns the merged in-memory cache together with the resulting store. -/
def addPageToCache (store : Store) (url : String) (page perPage : Nat)
    (resp : ApiResponse) (rand : Nat → String) (now : Nat)
    (fail1 fail2 : Bool) : SearchCache × Store :=
  let key := cacheKeyPre ++ normalizeSearchUrl url
  let cache := mergePage store url page perPage resp rand now
  let store' :=
    if fail1 then
      let pruned := pruneOldestCaches store
      if fail2 then pruned else storeSet pruned key (StoreVal.ok cache)
    else storeSet store key (StoreVal.ok cache)
  (cache, store')

/-- `hasMorePages`. -/
def hasMorePages (cache : SearchCache) : Bool :=
  (cache.blocks.length : Int) < cache.totalFromAPI

/-! ### Search-page script (part_002): URL parsing model -/

/-- The hostname and pathname of a parsed URL.  The grouping and
classification code reads only these two components; in particular the
query string is not part of a parse result, exactly as neither code path
ever reads `url.search`. -/
structure UrlParts where
  hostname : String
  pathname : String
deriving DecidableEq, Repr

/-- Model of the WHATWG `new URL(s)` constructor for the absolute
`http://` / `https://` forms the page produces (every call site passes
either a string already starting with `http` or one prefixed with
`http://`).  The authority runs to the first `/`, `?` or `#`; the hostname
is the authority up to a `:` port separator, lower-cased; an empty hostname
is a parse failure (special schemes reject an empty host); the pathname
runs from the `/` to the first `?` or `#` and defaults to `/`.  Exotic
syntax (userinfo, scheme-relative forms, other schemes) is modelled as a
parse failure. -/
def parseHttpUrl (s : String) : Option UrlParts :=
  let cs := s.data
  let after :=
    if "http://".data.isPrefixOf cs then some (cs.drop 7)
    else if "https://".data.isPrefixOf cs then some (cs.drop 8)
    else none
  match after with
  | none => none
  | some rest =>
      let auth := rest.takeWhile (fun c => !(c == '/') && !(c == '?') && !(c == '#'))
      let host := (auth.takeWhile (fun c => !(c == ':'))).map Char.toLower
      if host.isEmpty then none
      else
        let tail := rest.drop auth.length
        let path := tail.takeWhile (fun c => !(c == '?') && !(c == '#'))
        some ⟨⟨host⟩, ⟨if path.isEmpty then ['/'] else path⟩⟩

/-- The argument the page code hands to `new URL`:
`s.startsWith('http') ? s : 'http://' + s`. -/
def toUrlArg (s : String) : String :=
  if strStarts s "http" then s else "http://" ++ s

/-! ### Search-page script (part_002): grouping -/

/-- `normalizeUrl` (part_002 lines 873–904): empty in, empty out; on a
successful parse, hostname with a leading `www` plus one further character
stripped (the regex `/^www./` has an unescaped dot) concatenated with the
pathname minus one trailing slash — the query string is dropped; on a parse
failure, the raw string with a leading `http(s)://www.` or `www.` and a
trailing slash stripped. -/
def normalizeUrl (url : String) : String :=
  if url == "" then ""
  else
    match parseHttpUrl (toUrlArg url) with
    | some u =>
        let pathname :=
          if strEnds u.pathname "/" then strDropRight u.pathname 1 else u.pathname
        let host :=
          if strStarts u.hostname "www" && 4 ≤ u.hostname.data.length
          then strDrop u.hostname 4 else u.hostname
        host ++ pathname
    | none =>
        let f :=
          if strStarts (strLower url) "http://www." then "http://" ++ strDrop url 11
          else if strStarts (strLower url) "https://www." then "https://" ++ strDrop url 12
          else if strStarts (strLower url) "www." then strDrop url 4
          else url
        if strEnds f "/" then strDropRight f 1 else f

/-- `resolveResultUrl` (part_002 lines 906–921). -/
def resolveResultUrl (r : Result) : String :=
  if r.typename == "Channel" then
    "https://are.na/channel/" ++ jsShow (jsOr r.slug r.id)
  else
    match jsOr r.source_url r.sourceUrlNested with
    | some u => u
    | none =>
        match r.href with
        | some h => "https://are.na" ++ h
        | none => ""

/-- The group key `groupResultsByUrl` (part_002 lines 923–949) assigns one
result: channels key by their own identity; other results key by the
normalized resolved URL, falling back to `typename:` + (`id ||
Math.random()`) when that normalization is empty.  `rand` is the oracle
value of the fallback's `Math.random()` call site. -/
def groupKeyFor (r : Result) (rand : String) : String :=
  if r.typename == "Channel" then
    "channel:" ++ jsShow (jsOr r.id r.slug)
  else
    let n := normalizeUrl (resolveResultUrl r)
    if n == "" then
      r.typename ++ ":" ++ (match r.id with | some x => x | none => rand)
    else n

/-- Append `v` to the group of `k`, creating the group at the end on first
sight (JS object string keys enumerate in insertion order; no group key
produced here is an array-index-like key). -/
def groupsPush (gs : List (String × List Result)) (k : String) (v : Result) :
    List (String × List Result) :=
  match gs with
  | [] => [(k, [v])]
  | (k', vs) :: rest =>
      if k' = k then (k', vs ++ [v]) :: rest
      else (k', vs) :: groupsPush rest k v

/-- `groupResultsByUrl`: fold the results into keyed groups. -/
def groupResultsByUrl (rs : List (Result × String)) : List (String × List Result) :=
  rs.foldl (fun gs p => groupsPush gs (groupKeyFor p.1 p.2) p.1) []

/-! ### Search-page script (part_002): classification and sort -/

/-- The `UrlCategory` union of part_002. -/
inductive UrlCategory where
  | exact
  | subpath
  | subdomain
  | channel
  | other
deriving DecidableEq, Repr

/-- Strip a leading `www.` (the escaped regex `/^www\./`). -/
def stripWwwDot (s : String) : String :=
  if strStarts s "www." then strDrop s 4 else s

/-- The search term's host part: `searchTerm.replace(/^www\./, '').split('/')[0]`. -/
def searchHostOf (searchTerm : String) : String :=
  beforeSlash (stripWwwDot searchTerm)

/-- `classifyUrl` (part_002 lines 61–90). -/
def classifyUrl (sourceKey searchTerm : String) : UrlCategory :=
  if strStarts sourceKey "channel:" then UrlCategory.channel
  else
    match parseHttpUrl (toUrlArg sourceKey) with
    | none => UrlCategory.other
    | some u =>
        let hostname := stripWwwDot u.hostname
        let searchHost := searchHostOf searchTerm
        if hostname == searchHost && (u.pathname == "/" || u.pathname == "") then
          UrlCategory.exact
        else if hostname == searchHost then UrlCategory.subpath
        else if strEnds hostname ("." ++ searchHost) then UrlCategory.subdomain
        else UrlCategory.other

/-- The category priority table of `sortGroupedResults`. -/
def categoryPriority : UrlCategory → Nat
  | UrlCategory.exact => 0
  | UrlCategory.subpath => 1
  | UrlCategory.channel => 2
  | UrlCategory.subdomain => 3
  | UrlCategory.other => 4

/-- A classified group. -/
structure ClassifiedGroup where
  key : String
  results : List Result
  category : UrlCategory
deriving DecidableEq, Repr

/-- Lexicographic (code-unit) string order on character data. -/
def charListLe (a b : List Char) : Bool :=
  match a, b with
  | [], _ => true
  | _ :: _, [] => false
  | c :: cs, d :: ds =>
      if c.toNat < d.toNat then true
      else if d.toNat < c.toNat then false
      else charListLe cs ds

/-- The comparator of `sortGroupedResults` as a boolean order: ascending
category priority, ties by string comparison of the key.  JS
`localeCompare` is modelled as the lexicographic code-unit order (its
locale-independent reading, and the order the spec prescribes). -/
def groupLe (a b : ClassifiedGroup) : Bool :=
  if categoryPriority a.category == categoryPriority b.category then
    charListLe a.key.data b.key.data
  else decide (categoryPriority a.category < categoryPriority b.category)

/-- `sortGroupedResults` (part_002 lines 93–123): classify every group,
then stable-sort by `(categoryPriority, key)`. -/
def sortGroupedResults (groups : List (String × List Result))
    (searchTerm : String) : List ClassifiedGroup :=
  let classified := groups.map (fun p =>
    { key := p.1, results := p.2, category := classifyUrl p.1 searchTerm })
  stableSort groupLe classified

/-! ### Search-page script (part_002): display filter and search driver -/

/-- The predicate of the `showResults` filter (part_002 lines 617–621): a
result is kept iff it is a channel or has a source URL
(`source_url || source?.url`); the permalink `href` plays no part. -/
def keepResult (r : Result) : Bool :=
  if r.typename == "Channel" then true
  else (jsOr r.source_url r.sourceUrlNested).isSome

/-- The `showResults` pre-grouping filter. -/
def showResultsFilter (rs : List Result) : List Result :=
  rs.filter keepResult

/-- `pageToFetch` of `performSearch` (part_002 lines 527–529): page
`lastPage + 1` when loading more onto an in-memory cache, else page 1. -/
def pageToFetch (loadMore : Bool) (cache : Option SearchCache) : Nat :=
  match loadMore, cache with
  | true, some c => c.lastPage + 1
  | _, _ => 1

/-- The force-refresh path of `performSearch` (part_002 lines 470–578):
with `forceRefresh` set, `isNewSearch` is true, the in-memory
`currentSearchCache` is nulled, the stale-while-revalidate early return is
skipped (its guard requires `!options.forceRefresh`), `loadMore` is absent
so page `pageToFetch false none = 1` is fetched, and the response is merged
with `addPageToCache(url, 1, perPage, results)`.  Nothing touches the
durable entry first: `clearSearchCache` is imported by the module but never
invoked, so the merge reads the existing stored cache. -/
def performSearchForceRefresh (store : Store) (url : String) (perPage : Nat)
    (resp : ApiResponse) (rand : Nat → String) (now : Nat) :
    SearchCache × Store :=
  addPageToCache store url (pageToFetch false none) perPage resp rand now
    false false

/-! ### Generic lemmas about the stable sort -/

theorem stableInsert_perm (le : α → α → Bool) (x : α) (l : List α) :
    List.Perm (stableInsert le x l) (x :: l) := by
  induction l with
  | nil => simp [stableInsert]
  | cons y ys ih =>
      unfold stableInsert
      by_cases h : le x y = true
      · simp [h]
      · simp only [h, if_false]
        exact ((ih.cons y).trans (List.Perm.swap x y ys))

theorem stableSort_perm (le : α → α → Bool) (l : List α) :
    List.Perm (stableSort le l) l := by
  induction l with
  | nil => simp [stableSort]
  | cons x xs ih =>
      unfold stableSort
      exact (stableInsert_perm le x (stableSort le xs)).trans (ih.cons x)

theorem mem_stableInsert (le : α → α → Bool) (x z : α) (l : List α) :
    z ∈ stableInsert le x l ↔ z = x ∨ z ∈ l := by
  constructor
  · intro h
    have := (stableInsert_perm le x l).mem_iff.mp h
    simpa using this
  · intro h
    apply (stableInsert_perm le x l).mem_iff.mpr
    simpa using h

theorem sorted_stableInsert (le : α → α → Bool)
    (htrans : ∀ a b c, le a b = true → le b c = true → le a c = true)
    (htot : ∀ a b, le a b = true ∨ le b a = true)
    (x : α) (l : List α) (h : List.Sorted (fun a b => le a b = true) l) :
    List.Sorted (fun a b => le a b = true) (stableInsert le x l) := by
  induction l with
  | nil => simp [stableInsert]
  | cons y ys ih =>
      rw [List.sorted_cons] at h
      unfold stableInsert
      by_cases hxy : le x y = true
      · rw [if_pos hxy, List.sorted_cons]
        refine ⟨?_, (List.sorted_cons).mpr h⟩
        intro b hb
        rcases List.mem_cons.mp hb with rfl | hb
        · exact hxy
        · exact htrans x y b hxy (h.1 b hb)
      · rw [if_neg hxy, List.sorted_cons]
        refine ⟨?_, ih h.2⟩
        intro b hb
        rcases (mem_stableInsert le x b ys).mp hb with hbx | hb
        · rcases htot x y with hxle | hyle
          · exact absurd hxle hxy
          · rw [hbx]
            exact hyle
        · exact h.1 b hb

theorem sorted_stableSort (le : α → α → Bool)
    (htrans : ∀ a b c, le a b = true → le b c = true → le a c = true)
    (htot : ∀ a b, le a b = true ∨ le b a = true) (l : List α) :
    List.Sorted (fun a b => le a b = true) (stableSort le l) := by
  induction l with
  | nil => simp [stableSort]
  | cons x xs ih =>
      unfold stableSort
      exact sorted_stableInsert le htrans htot x (stableSort le xs) ih

/-! ### Lemmas about the durable store -/

theorem storeGet_cons (k : String) (v : StoreVal) (rest : Store) (key : String) :
    storeGet ((k, v) :: rest) key = if k = key then some v else storeGet rest key := rfl

theorem storeSet_cons (k : String) (w : StoreVal) (rest : Store) (key : String)
    (v : StoreVal) :
    storeSet ((k, w) :: rest) key v =
      if k = key then (k, v) :: rest else (k, w) :: storeSet rest key v := rfl

theorem storeRemove_cons (k : String) (w : StoreVal) (rest : Store) (key : String) :
    storeRemove ((k, w) :: rest) key =
      if k = key then storeRemove rest key else (k, w) :: storeRemove rest key := rfl

theorem storeGet_storeSet_self (st : Store) (k : String) (v : StoreVal) :
    storeGet (storeSet st k v) k = some v := by
  induction st with
  | nil => simp [storeSet, storeGet]
  | cons p rest ih =>
      obtain ⟨k', w⟩ := p
      rw [storeSet_cons]
      by_cases h : k' = k
      · rw [if_pos h, storeGet_cons, if_pos h]
      · rw [if_neg h, storeGet_cons, if_neg h]
        exact ih

theorem storeGet_storeRemove_ne (st : Store) (key k : String) (h : k ≠ key) :
    storeGet (storeRemove st key) k = storeGet st k := by
  induction st with
  | nil => simp [storeRemove]
  | cons p rest ih =>
      obtain ⟨k', w⟩ := p
      rw [storeRemove_cons]
      by_cases hk : k' = key
      · rw [if_pos hk, storeGet_cons]
        have hne : k' ≠ k := fun hc => h (hc ▸ hk)
        rw [if_neg hne]
        exact ih
      · rw [if_neg hk, storeGet_cons, storeGet_cons]
        by_cases hk2 : k' = k
        · rw [if_pos hk2, if_pos hk2]
        · rw [if_neg hk2, if_neg hk2]
          exact ih

/-! ### Lemmas about the block map and the merge loop -/

/-- The keys of a block map are pairwise distinct. -/
def keysNodup (m : Blocks) : Prop := (m.map Prod.fst).Nodup

theorem mapHas_nil (k : String) : mapHas [] k = false := rfl

theorem mapHas_cons (k' : String) (v : CachedBlock) (rest : Blocks) (k : String) :
    mapHas ((k', v) :: rest) k = (decide (k' = k) || mapHas rest k) := rfl

theorem mapSet_cons (k' : String) (v' : CachedBlock) (rest : Blocks) (k : String)
    (v : CachedBlock) :
    mapSet ((k', v') :: rest) k v =
      if k' = k then (k', v) :: rest else (k', v') :: mapSet rest k v := rfl

theorem mapHas_iff (m : Blocks) (k : String) :
    mapHas m k = true ↔ ∃ v, (k, v) ∈ m := by
  induction m with
  | nil => simp [mapHas]
  | cons p rest ih =>
      obtain ⟨k', v'⟩ := p
      rw [mapHas_cons]
      simp only [Bool.or_eq_true, decide_eq_true_eq, ih]
      constructor
      · rintro (rfl | ⟨v, hv⟩)
        · exact ⟨v', List.mem_cons_self _ _⟩
        · exact ⟨v, List.mem_cons_of_mem _ hv⟩
      · rintro ⟨v, hv⟩
        rcases List.mem_cons.mp hv with heq | hv
        · left
          exact (Prod.mk.injEq .. ▸ heq).1.symm ▸ rfl
        · right
          exact ⟨v, hv⟩

theorem mapSet_of_not_has (m : Blocks) (k : String) (v : CachedBlock)
    (h : mapHas m k = false) : mapSet m k v = m ++ [(k, v)] := by
  induction m with
  | nil => rfl
  | cons p rest ih =>
      obtain ⟨k', v'⟩ := p
      rw [mapHas_cons] at h
      simp only [Bool.or_eq_false_iff, decide_eq_false_iff_not] at h
      rw [mapSet_cons, if_neg h.1, ih h.2]
      rfl

theorem mapHas_mapSet (m : Blocks) (k k' : String) (v : CachedBlock) :
    mapHas (mapSet m k' v) k = (decide (k' = k) || mapHas m k) := by
  induction m with
  | nil => simp [mapSet, mapHas_cons, mapHas_nil]
  | cons p rest ih =>
      obtain ⟨k₀, v₀⟩ := p
      rw [mapSet_cons]
      by_cases h : k₀ = k'
      · rw [if_pos h, mapHas_cons, mapHas_cons, h]
        by_cases hk : k' = k
        · simp [hk]
        · simp [hk]
      · rw [if_neg h, mapHas_cons, mapHas_cons, ih]
        by_cases hk : k₀ = k <;> by_cases hk' : k' = k <;> simp [hk, hk']

theorem mapSet_map_fst (m : Blocks) (k : String) (v : CachedBlock)
    (h : mapHas m k = false) :
    (mapSet m k v).map Prod.fst = m.map Prod.fst ++ [k] := by
  rw [mapSet_of_not_has m k v h]
  simp

theorem mapSet_keysNodup (m : Blocks) (k : String) (v : CachedBlock)
    (hm : keysNodup m) : keysNodup (mapSet m k v) := by
  by_cases h : mapHas m k = true
  · have : (mapSet m k v).map Prod.fst = m.map Prod.fst := by
      induction m with
      | nil => simp [mapHas] at h
      | cons p rest ih =>
          obtain ⟨k₀, v₀⟩ := p
          rw [mapSet_cons]
          by_cases hk : k₀ = k
          · rw [if_pos hk]
            simp
          · rw [if_neg hk]
            rw [mapHas_cons] at h
            simp only [Bool.or_eq_true, decide_eq_true_eq] at h
            rcases h with h | h
            · exact absurd h hk
            · have hrest : keysNodup rest := by
                unfold keysNodup at hm ⊢
                simpa using (List.nodup_cons.mp (by simpa using hm)).2
              simp [ih hrest h]
    unfold keysNodup
    rw [this]
    exact hm
  · have h' : mapHas m k = false := by
      cases hh : mapHas m k
      · rfl
      · exact absurd hh h
    unfold keysNodup
    rw [mapSet_map_fst m k v h']
    rw [List.nodup_append]
    refine ⟨hm, List.nodup_singleton k, ?_⟩
    intro a ha
    simp only [List.mem_singleton]
    intro hak
    rw [hak] at ha
    have : ∃ v', (k, v') ∈ m := by
      rcases List.mem_map.mp ha with ⟨⟨k₁, v₁⟩, hmem, hfst⟩
      exact ⟨v₁, by rwa [show k₁ = k from hfst] at hmem⟩
    rcases this with ⟨v', hv'⟩
    have := (mapHas_iff m k).mpr ⟨v', hv'⟩
    rw [h'] at this
    exact Bool.false_ne_true this

theorem addResultsAux_nil (blocks : Blocks) : addResultsAux blocks [] = blocks := rfl

theorem addResultsAux_cons (blocks : Blocks) (r : Result) (s : String)
    (rest : List (Result × String)) :
    addResultsAux blocks ((r, s) :: rest) =
      (if mapHas blocks (computeBlockId r s) then addResultsAux blocks rest
       else addResultsAux
         (mapSet blocks (computeBlockId r s)
           (mkCachedBlock r (computeBlockId r s))) rest) := rfl

/-- The ids the merge loop computes for a list of (result, oracle) pairs. -/
def pairIds (pairs : List (Result × String)) : List String :=
  pairs.map (fun p => computeBlockId p.1 p.2)

theorem pairIds_cons (r : Result) (s : String) (rest : List (Result × String)) :
    pairIds ((r, s) :: rest) = computeBlockId r s :: pairIds rest := rfl

theorem attachRands_cons (r : Result) (rest : List Result) (f : Nat → String)
    (i : Nat) :
    attachRands (r :: rest) f i = (r, f i) :: attachRands rest f (i + 1) := rfl

theorem addResultsAux_preserves_mem (pairs : List (Result × String)) :
    ∀ (blocks : Blocks) (p : String × CachedBlock),
      p ∈ blocks → p ∈ addResultsAux blocks pairs := by
  induction pairs with
  | nil => intro blocks p hp; simpa [addResultsAux_nil] using hp
  | cons q rest ih =>
      intro blocks p hp
      obtain ⟨r, s⟩ := q
      rw [addResultsAux_cons]
      by_cases h : mapHas blocks (computeBlockId r s) = true
      · rw [if_pos h]
        exact ih blocks p hp
      · rw [if_neg h]
        apply ih
        rw [mapSet_of_not_has _ _ _ (by simpa using h)]
        exact List.mem_append_left _ hp

theorem addResultsAux_has_mono (pairs : List (Result × String)) :
    ∀ (blocks : Blocks) (k : String),
      mapHas blocks k = true → mapHas (addResultsAux blocks pairs) k = true := by
  induction pairs with
  | nil => intro blocks k h; simpa [addResultsAux_nil] using h
  | cons q rest ih =>
      intro blocks k h
      obtain ⟨r, s⟩ := q
      rw [addResultsAux_cons]
      by_cases hh : mapHas blocks (computeBlockId r s) = true
      · rw [if_pos hh]
        exact ih blocks k h
      · rw [if_neg hh]
        apply ih
        rw [mapHas_mapSet]
        simp [h]

theorem addResultsAux_has_of_mem (pairs : List (Result × String)) :
    ∀ (blocks : Blocks) (r : Result) (s : String), (r, s) ∈ pairs →
      mapHas (addResultsAux blocks pairs) (computeBlockId r s) = true := by
  induction pairs with
  | nil => intro blocks r s h; simp at h
  | cons q rest ih =>
      intro blocks r s h
      obtain ⟨r', s'⟩ := q
      rw [addResultsAux_cons]
      rcases List.mem_cons.mp h with heq | hmem
      · injection heq with h1 h2
        subst h1
        subst h2
        by_cases hh : mapHas blocks (computeBlockId r s) = true
        · rw [if_pos hh]
          exact addResultsAux_has_mono rest blocks _ hh
        · rw [if_neg hh]
          apply addResultsAux_has_mono
          rw [mapHas_mapSet]
          simp
      · by_cases hh : mapHas blocks (computeBlockId r' s') = true
        · rw [if_pos hh]
          exact ih blocks r s hmem
        · rw [if_neg hh]
          exact ih _ r s hmem

theorem addResultsAux_eq_of_all_has (pairs : List (Result × String)) :
    ∀ (blocks : Blocks),
      (∀ p ∈ pairs, mapHas blocks (computeBlockId p.1 p.2) = true) →
      addResultsAux blocks pairs = blocks := by
  induction pairs with
  | nil => intro blocks _; rfl
  | cons q rest ih =>
      intro blocks h
      obtain ⟨r, s⟩ := q
      rw [addResultsAux_cons, if_pos (h (r, s) (List.mem_cons_self _ _))]
      exact ih blocks (fun p hp => h p (List.mem_cons_of_mem _ hp))

theorem addResultsAux_has_subset (pairs : List (Result × String)) :
    ∀ (blocks : Blocks) (k : String),
      mapHas (addResultsAux blocks pairs) k = true →
      mapHas blocks k = true ∨ k ∈ pairIds pairs := by
  induction pairs with
  | nil => intro blocks k h; left; simpa [addResultsAux_nil] using h
  | cons q rest ih =>
      intro blocks k h
      obtain ⟨r, s⟩ := q
      rw [addResultsAux_cons] at h
      by_cases hh : mapHas blocks (computeBlockId r s) = true
      · rw [if_pos hh] at h
        rcases ih blocks k h with h1 | h1
        · exact Or.inl h1
        · exact Or.inr (List.mem_cons_of_mem _ h1)
      · rw [if_neg hh] at h
        rcases ih _ k h with h1 | h1
        · rw [mapHas_mapSet] at h1
          simp only [Bool.or_eq_true, decide_eq_true_eq] at h1
          rcases h1 with h1 | h1
          · exact Or.inr (h1 ▸ List.mem_cons_self _ _)
          · exact Or.inl h1
        · exact Or.inr (List.mem_cons_of_mem _ h1)

theorem addResultsAux_mem_insert (pairs : List (Result × String)) :
    ∀ (blocks : Blocks) (r : Result) (s : String),
      (r, s) ∈ pairs →
      mapHas blocks (computeBlockId r s) = false →
      (pairIds pairs).Nodup →
      (computeBlockId r s, mkCachedBlock r (computeBlockId r s)) ∈
        addResultsAux blocks pairs := by
  induction pairs with
  | nil => intro blocks r s h _ _; simp at h
  | cons q rest ih =>
      intro blocks r s hmem hfresh hnd
      obtain ⟨r', s'⟩ := q
      rw [pairIds_cons] at hnd
      have hnd' : (pairIds rest).Nodup := (List.nodup_cons.mp hnd).2
      rw [addResultsAux_cons]
      rcases List.mem_cons.mp hmem with heq | hmem'
      · injection heq with h1 h2
        subst h1
        subst h2
        rw [if_neg (by simp [hfresh])]
        apply addResultsAux_preserves_mem
        rw [mapSet_of_not_has _ _ _ hfresh]
        exact List.mem_append_right _ (List.mem_singleton_self _)
      · have hne : computeBlockId r' s' ≠ computeBlockId r s := by
          intro hc
          have hin : computeBlockId r s ∈ pairIds rest :=
            List.mem_map.mpr ⟨(r, s), hmem', rfl⟩
          rw [← hc] at hin
          exact (List.nodup_cons.mp hnd).1 hin
        by_cases hh : mapHas blocks (computeBlockId r' s') = true
        · rw [if_pos hh]
          exact ih blocks r s hmem' hfresh hnd'
        · rw [if_neg hh]
          apply ih _ r s hmem' _ hnd'
          rw [mapHas_mapSet]
          simp [hfresh, hne]

theorem addResultsAux_keysNodup (pairs : List (Result × String)) :
    ∀ (blocks : Blocks), keysNodup blocks →
      keysNodup (addResultsAux blocks pairs) := by
  induction pairs with
  | nil => intro blocks h; simpa [addResultsAux_nil] using h
  | cons q rest ih =>
      intro blocks h
      obtain ⟨r, s⟩ := q
      rw [addResultsAux_cons]
      by_cases hh : mapHas blocks (computeBlockId r s) = true
      · rw [if_pos hh]
        exact ih blocks h
      · rw [if_neg hh]
        exact ih _ (mapSet_keysNodup _ _ _ h)

theorem attachRands_map_fst (rs : List Result) :
    ∀ (f : Nat → String) (i : Nat), (attachRands rs f i).map Prod.fst = rs := by
  induction rs with
  | nil => intro f i; rfl
  | cons r rest ih =>
      intro f i
      rw [attachRands_cons, List.map_cons, ih]

theorem mem_attachRands (rs : List Result) :
    ∀ (f : Nat → String) (i : Nat) (r : Result) (s : String),
      (r, s) ∈ attachRands rs f i → r ∈ rs := by
  induction rs with
  | nil => intro f i r s h; simp [attachRands] at h
  | cons r' rest ih =>
      intro f i r s h
      rw [attachRands_cons] at h
      rcases List.mem_cons.mp h with heq | hmem
      · injection heq with h1 _
        exact h1 ▸ List.mem_cons_self _ _
      · exact List.mem_cons_of_mem _ (ih f (i + 1) r s hmem)

theorem attachRands_mem_of_mem (rs : List Result) :
    ∀ (f : Nat → String) (i : Nat) (r : Result), r ∈ rs →
      ∃ s, (r, s) ∈ attachRands rs f i := by
  induction rs with
  | nil => intro f i r h; simp at h
  | cons r' rest ih =>
      intro f i r h
      rcases List.mem_cons.mp h with rfl | h
      · exact ⟨f i, List.mem_cons_self _ _⟩
      · rcases ih f (i + 1) r h with ⟨s, hs⟩
        exact ⟨s, List.mem_cons_of_mem _ hs⟩

/-! ### Map reconstruction (`new Map(entries)`) -/

theorem mapHas_eq_keys_mem (m : Blocks) (k : String) :
    mapHas m k = true ↔ k ∈ m.map Prod.fst := by
  rw [mapHas_iff]
  constructor
  · rintro ⟨v, hv⟩
    exact List.mem_map.mpr ⟨(k, v), hv, rfl⟩
  · intro h
    rcases List.mem_map.mp h with ⟨⟨k1, v1⟩, hm, hfst⟩
    exact ⟨v1, by rwa [show k1 = k from hfst] at hm⟩

theorem foldl_mapSet_app (entries : Blocks) :
    ∀ (acc : Blocks), (((acc ++ entries).map Prod.fst).Nodup) →
      entries.foldl (fun m p => mapSet m p.1 p.2) acc = acc ++ entries := by
  induction entries with
  | nil => intro acc _; simp
  | cons p rest ih =>
      intro acc hnd
      obtain ⟨k, v⟩ := p
      rw [List.foldl_cons]
      have hk : k ∉ acc.map Prod.fst := by
        intro hc
        rw [List.map_append] at hnd
        rcases List.nodup_append.mp hnd with ⟨_, _, hdisj⟩
        exact hdisj hc (by simp)
      have hfresh : mapHas acc k = false := by
        cases hh : mapHas acc k
        · rfl
        · exact absurd ((mapHas_eq_keys_mem acc k).mp hh) hk
      rw [show mapSet acc (k, v).1 (k, v).2 = acc ++ [(k, v)] from
        mapSet_of_not_has acc k v hfresh]
      have hre : acc ++ (k, v) :: rest = (acc ++ [(k, v)]) ++ rest := by
        simp
      rw [ih (acc ++ [(k, v)]) (by rw [← hre]; exact hnd), ← hre]

theorem mapFromEntries_eq_self (m : Blocks) (h : keysNodup m) :
    mapFromEntries m = m := by
  have := foldl_mapSet_app m [] (by simpa [keysNodup] using h)
  simpa [mapFromEntries] using this

theorem foldl_mapSet_keysNodup (entries : Blocks) :
    ∀ (acc : Blocks), keysNodup acc →
      keysNodup (entries.foldl (fun m p => mapSet m p.1 p.2) acc) := by
  induction entries with
  | nil => intro acc h; simpa using h
  | cons p rest ih =>
      intro acc h
      rw [List.foldl_cons]
      exact ih _ (mapSet_keysNodup _ _ _ h)

theorem mapFromEntries_keysNodup (m : Blocks) : keysNodup (mapFromEntries m) :=
  foldl_mapSet_keysNodup m [] (by simp [keysNodup])

/-! ### Stable identities -/

/-- An item whose cache identity does not consult `Math.random()`: it is a
channel, or its href yields a block id, or it has a truthy `id`. -/
def hasStableId (r : Result) : Bool :=
  r.typename == "Channel" || !(extractBlockId (orEmpty r.href) == "") || r.id.isSome

theorem computeBlockId_stable (r : Result) (h : hasStableId r = true)
    (s s' : String) : computeBlockId r s = computeBlockId r s' := by
  unfold computeBlockId
  unfold hasStableId at h
  by_cases hc : (r.typename == "Channel") = true
  · rw [if_pos hc, if_pos hc]
  · rw [if_neg hc, if_neg hc]
    by_cases hb : (extractBlockId (orEmpty r.href) == "") = true
    · rw [if_pos hb, if_pos hb]
      cases hid : r.id with
      | some x => rfl
      | none =>
          rw [Bool.eq_false_iff.mpr hc, hb, hid] at h
          simp at h
    · rw [if_neg hb, if_neg hb]

/-! ### Lemmas about the cache read and merge -/

/-- The stored cache for a search url, as the code reads it back. -/
def oldCache (store : Store) (url : String) : Option SearchCache :=
  getSearchCache store url

/-- The `lastPage` the merge starts from: the stored one, or 0 for a fresh
cache. -/
def oldLastPage (store : Store) (url : String) : Nat :=
  match getSearchCache store url with
  | some c => c.lastPage
  | none => 0

/-- The blocks the merge starts from: the stored ones, or none. -/
def oldBlocks (store : Store) (url : String) : Blocks :=
  match getSearchCache store url with
  | some c => c.blocks
  | none => []

theorem getSearchCache_blocks_keysNodup (store : Store) (url : String)
    (c : SearchCache) (h : getSearchCache store url = some c) :
    keysNodup c.blocks := by
  unfold getSearchCache at h
  cases hg : storeGet store (cacheKeyPre ++ normalizeSearchUrl url) with
  | none => simp [hg] at h
  | some v =>
      cases v with
      | ok c0 =>
          simp only [hg] at h
          injection h with h2
          rw [← h2]
          exact mapFromEntries_keysNodup c0.blocks
      | bad s => simp [hg] at h

theorem oldBlocks_keysNodup (store : Store) (url : String) :
    keysNodup (oldBlocks store url) := by
  unfold oldBlocks
  cases h : getSearchCache store url with
  | none => simp [keysNodup]
  | some c => exact getSearchCache_blocks_keysNodup store url c h

theorem mergePage_lastPage (store : Store) (url : String) (page perPage : Nat)
    (resp : ApiResponse) (rand : Nat → String) (now : Nat) :
    (mergePage store url page perPage resp rand now).lastPage =
      max (oldLastPage store url) page := by
  unfold mergePage oldLastPage
  cases h : getSearchCache store url <;> simp [h]

theorem mergePage_blocks (store : Store) (url : String) (page perPage : Nat)
    (resp : ApiResponse) (rand : Nat → String) (now : Nat) :
    (mergePage store url page perPage resp rand now).blocks =
      addResultsAux (oldBlocks store url) (attachRands resp.results rand 0) := by
  unfold mergePage oldBlocks
  cases h : getSearchCache store url <;> simp [h]

theorem mergePage_keysNodup (store : Store) (url : String) (page perPage : Nat)
    (resp : ApiResponse) (rand : Nat → String) (now : Nat) :
    keysNodup (mergePage store url page perPage resp rand now).blocks := by
  rw [mergePage_blocks]
  exact addResultsAux_keysNodup _ _ (oldBlocks_keysNodup store url)

theorem addPageToCache_fst (store : Store) (url : String) (page perPage : Nat)
    (resp : ApiResponse) (rand : Nat → String) (now : Nat) (fail1 fail2 : Bool) :
    (addPageToCache store url page perPage resp rand now fail1 fail2).1 =
      mergePage store url page perPage resp rand now := rfl

theorem getSearchCache_after_add (store : Store) (url : String)
    (page perPage : Nat) (resp : ApiResponse) (rand : Nat → String) (now : Nat) :
    getSearchCache (addPageToCache store url page perPage resp rand now
        false false).2 url =
      some { mergePage store url page perPage resp rand now with
              blocks := mapFromEntries
                (mergePage store url page perPage resp rand now).blocks } := by
  unfold addPageToCache getSearchCache
  simp [storeGet_storeSet_self]

/-! ### Lemmas about pruning -/

theorem scanCaches_collected_pre (st : Store) :
    ∀ p ∈ (scanCaches st).1, strStarts p.1 cacheKeyPre = true := by
  induction st using scanCaches.induct with
  | case1 => intro p hp; simp [scanCaches] at hp
  | case2 k rest hpre a acc rem heq ih =>
      intro p hp
      simp [scanCaches, hpre, heq] at hp
      rcases hp with rfl | hp
      · exact hpre
      · exact ih p (by rw [heq]; exact hp)
  | case3 k rest hpre a ha ih =>
      intro p hp
      rw [scanCaches.eq_def] at hp
      simp [hpre, ha] at hp
      exact ih p hp
  | case4 k hpre a ha =>
      intro p hp
      simp [scanCaches, hpre, ha] at hp
  | case5 k hpre a ha head rest' acc rem heq ih =>
      intro p hp
      simp [scanCaches, hpre, ha, heq] at hp
      exact ih p (by rw [heq]; exact hp)
  | case6 k v rest hpre ih =>
      intro p hp
      rw [scanCaches.eq_def] at hp
      simp [hpre] at hp
      exact ih p hp

theorem scanCaches_removed_pre (st : Store) :
    ∀ k ∈ (scanCaches st).2, strStarts k cacheKeyPre = true := by
  induction st using scanCaches.induct with
  | case1 => intro k hk; simp [scanCaches] at hk
  | case2 k0 rest hpre a acc rem heq ih =>
      intro k hk
      simp [scanCaches, hpre, heq] at hk
      exact ih k (by rw [heq]; exact hk)
  | case3 k0 rest hpre a ha ih =>
      intro k hk
      rw [scanCaches.eq_def] at hk
      simp [hpre, ha] at hk
      exact ih k hk
  | case4 k0 hpre a ha =>
      intro k hk
      simp [scanCaches, hpre, ha] at hk
      rw [hk]
      exact hpre
  | case5 k0 hpre a ha head rest' acc rem heq ih =>
      intro k hk
      simp [scanCaches, hpre, ha, heq] at hk
      rcases hk with rfl | hk
      · exact hpre
      · exact ih k (by rw [heq]; exact hk)
  | case6 k0 v rest hpre ih =>
      intro k hk
      rw [scanCaches.eq_def] at hk
      simp [hpre] at hk
      exact ih k hk

theorem tsLe_trans (a b c : String × Nat) (h1 : tsLe a b = true)
    (h2 : tsLe b c = true) : tsLe a c = true := by
  unfold tsLe at *
  simp only [decide_eq_true_eq] at *
  omega

theorem tsLe_total (a b : String × Nat) : tsLe a b = true ∨ tsLe b a = true := by
  unfold tsLe
  simp only [decide_eq_true_eq]
  omega

theorem sortedCacheKeys_perm (store : Store) :
    List.Perm (sortedCacheKeys store) (scanCaches store).1 :=
  stableSort_perm tsLe (scanCaches store).1

theorem evictedCacheKeys_pre (store : Store) :
    ∀ p ∈ evictedCacheKeys store, strStarts p.1 cacheKeyPre = true := by
  intro p hp
  have hmem : p ∈ sortedCacheKeys store := List.take_subset _ _ hp
  exact scanCaches_collected_pre store p ((sortedCacheKeys_perm store).mem_iff.mp hmem)

theorem storeGet_foldl_remove_str (ks : List String) :
    ∀ (st : Store) (k : String),
      (∀ x ∈ ks, strStarts x cacheKeyPre = true) →
      strStarts k cacheKeyPre = false →
      storeGet (ks.foldl storeRemove st) k = storeGet st k := by
  induction ks with
  | nil => intro st k _ _; rfl
  | cons x rest ih =>
      intro st k hks hk
      rw [List.foldl_cons]
      rw [ih (storeRemove st x) k (fun y hy => hks y (List.mem_cons_of_mem _ hy)) hk]
      apply storeGet_storeRemove_ne
      intro hc
      rw [hc, hks x (List.mem_cons_self _ _)] at hk
      exact Bool.noConfusion hk

theorem storeGet_foldl_remove_pairs (ps : List (String × Nat)) :
    ∀ (st : Store) (k : String),
      (∀ x ∈ ps, strStarts x.1 cacheKeyPre = true) →
      strStarts k cacheKeyPre = false →
      storeGet (ps.foldl (fun st p => storeRemove st p.1) st) k = storeGet st k := by
  induction ps with
  | nil => intro st k _ _; rfl
  | cons x rest ih =>
      intro st k hks hk
      rw [List.foldl_cons]
      rw [ih (storeRemove st x.1) k (fun y hy => hks y (List.mem_cons_of_mem _ hy)) hk]
      apply storeGet_storeRemove_ne
      intro hc
      rw [hc, hks x (List.mem_cons_self _ _)] at hk
      exact Bool.noConfusion hk

theorem halfUp_le (n : Nat) : halfUp n ≤ n := by
  unfold halfUp
  omega

theorem evictedCacheKeys_length (store : Store) :
    (evictedCacheKeys store).length = halfUp (scanCaches store).1.length := by
  unfold evictedCacheKeys
  rw [List.length_take, (sortedCacheKeys_perm store).length_eq]
  exact Nat.min_eq_left (halfUp_le _)

theorem sortedCacheKeys_sorted (store : Store) :
    List.Sorted (fun a b => tsLe a b = true) (sortedCacheKeys store) :=
  sorted_stableSort tsLe tsLe_trans tsLe_total (scanCaches store).1

theorem evicted_le_kept (store : Store) :
    ∀ a ∈ evictedCacheKeys store,
    ∀ b ∈ (sortedCacheKeys store).drop (halfUp (sortedCacheKeys store).length),
      a.2 ≤ b.2 := by
  intro a ha b hb
  have := (sortedCacheKeys_sorted store).rel_of_mem_take_of_mem_drop ha hb
  simpa [tsLe] using this

/-! ### Lemmas about the group comparator -/

theorem charListLe_trans (a : List Char) :
    ∀ (b c : List Char), charListLe a b = true → charListLe b c = true →
      charListLe a c = true := by
  induction a with
  | nil => intro b c _ _; rfl
  | cons x xs ih =>
      intro b c hab hbc
      cases b with
      | nil => simp [charListLe] at hab
      | cons y ys =>
          cases c with
          | nil => simp [charListLe] at hbc
          | cons z zs =>
              unfold charListLe at hab hbc ⊢
              by_cases hxy1 : x.toNat < y.toNat
              · by_cases hyz1 : y.toNat < z.toNat
                · simp [show x.toNat < z.toNat by omega]
                · rw [if_neg hyz1] at hbc
                  by_cases hyz2 : z.toNat < y.toNat
                  · rw [if_pos hyz2] at hbc
                    exact absurd hbc (by simp)
                  · simp [show x.toNat < z.toNat by omega]
              · rw [if_neg hxy1] at hab
                by_cases hxy2 : y.toNat < x.toNat
                · rw [if_pos hxy2] at hab
                  exact absurd hab (by simp)
                · rw [if_neg hxy2] at hab
                  by_cases hyz1 : y.toNat < z.toNat
                  · simp [show x.toNat < z.toNat by omega]
                  · rw [if_neg hyz1] at hbc
                    by_cases hyz2 : z.toNat < y.toNat
                    · rw [if_pos hyz2] at hbc
                      exact absurd hbc (by simp)
                    · rw [if_neg hyz2] at hbc
                      have hxz1 : ¬ x.toNat < z.toNat := by omega
                      have hxz2 : ¬ z.toNat < x.toNat := by omega
                      rw [if_neg hxz1, if_neg hxz2]
                      exact ih ys zs hab hbc

theorem charListLe_total (a : List Char) :
    ∀ (b : List Char), charListLe a b = true ∨ charListLe b a = true := by
  induction a with
  | nil => intro b; left; rfl
  | cons x xs ih =>
      intro b
      cases b with
      | nil => right; rfl
      | cons y ys =>
          unfold charListLe
          by_cases hxy : x.toNat < y.toNat
          · left; simp [hxy]
          · by_cases hyx : y.toNat < x.toNat
            · right; simp [hyx]
            · rw [if_neg hxy, if_neg hyx, if_neg hyx, if_neg hxy]
              exact ih ys

theorem groupLe_trans (a b c : ClassifiedGroup) (h1 : groupLe a b = true)
    (h2 : groupLe b c = true) : groupLe a c = true := by
  unfold groupLe at h1 h2 ⊢
  by_cases e1 : categoryPriority a.category = categoryPriority b.category
  · rw [if_pos (by simp [e1])] at h1
    by_cases e2 : categoryPriority b.category = categoryPriority c.category
    · rw [if_pos (by simp [e2])] at h2
      rw [if_pos (by simp [e1.trans e2])]
      exact charListLe_trans _ _ _ h1 h2
    · rw [if_neg (by simp [e2])] at h2
      have e3 : categoryPriority a.category ≠ categoryPriority c.category := by
        rw [e1]; exact e2
      rw [if_neg (by simp [e3]), e1]
      exact h2
  · rw [if_neg (by simp [e1])] at h1
    simp only [decide_eq_true_eq] at h1
    by_cases e2 : categoryPriority b.category = categoryPriority c.category
    · have e3 : categoryPriority a.category ≠ categoryPriority c.category := by
        rw [← e2]; exact e1
      rw [if_neg (by simp [e3])]
      simp only [decide_eq_true_eq]
      omega
    · rw [if_neg (by simp [e2])] at h2
      simp only [decide_eq_true_eq] at h2
      have h3 : categoryPriority a.category < categoryPriority c.category :=
        Nat.lt_trans h1 h2
      rw [if_neg (by simp [Nat.ne_of_lt h3])]
      simp [h3]

theorem groupLe_total (a b : ClassifiedGroup) :
    groupLe a b = true ∨ groupLe b a = true := by
  unfold groupLe
  by_cases e : categoryPriority a.category = categoryPriority b.category
  · rw [if_pos (by simp [e]), if_pos (by simp [e.symm])]
    exact charListLe_total _ _
  · rw [if_neg (by simp [e]), if_neg (by simp [Ne.symm e])]
    rcases Nat.lt_or_ge (categoryPriority a.category) (categoryPriority b.category) with h | h
    · left; simp [h]
    · right
      simp [Nat.lt_of_le_of_ne h (Ne.symm e)]

/-- The spec's sort key, as a relation: ascending `(categoryPriority,
groupKey)`, ties broken by the lexicographic order on the key. -/
def groupOrder (a b : ClassifiedGroup) : Prop :=
  categoryPriority a.category < categoryPriority b.category
  ∨ (categoryPriority a.category = categoryPriority b.category
      ∧ charListLe a.key.data b.key.data = true)

theorem groupLe_iff (a b : ClassifiedGroup) :
    groupLe a b = true ↔ groupOrder a b := by
  unfold groupLe groupOrder
  by_cases e : categoryPriority a.category = categoryPriority b.category
  · rw [if_pos (by simp [e])]
    constructor
    · intro h
      exact Or.inr ⟨e, h⟩
    · intro h
      rcases h with h | ⟨_, h⟩
      · exact absurd e (Nat.ne_of_lt h)
      · exact h
  · rw [if_neg (by simp [e])]
    constructor
    · intro h
      exact Or.inl (by simpa using h)
    · intro h
      rcases h with h | ⟨h, _⟩
      · simp [h]
      · exact absurd h e

/-! ### Concrete example payloads (shared by witnesses and counterexamples) -/

/-- A minimal non-channel item with every optional field absent. -/
def emptyResult : Result :=
  { typename := "Text", id := none, slug := none, href := none, title := none,
    source_url := none, sourceUrlNested := none, image_url := none,
    connections := none }

/-- A block item with a stable `/blocks/<n>` permalink. -/
def blockRes (n : String) : Result :=
  { emptyResult with id := some n, href := some ("/blocks/" ++ n) }

/-- A block item whose source URL is `example.com/a?` + the given query. -/
def qRes (q : String) : Result :=
  { emptyResult with source_url := some ("example.com/a?" ++ q) }

/-- A random-oracle returning a fixed value. -/
def randConst (v : String) : Nat → String := fun _ => v

/-! ### Specification-side definitions -/

/-- The classification precedence exactly as §4.2 of the spec words it:
channel first; then, for a parsed URL, `exact` when the group hostname
equals the search hostname and the path is empty or `/`; `subpath` when the
hostnames match with any non-root path; `subdomain` when the group hostname
is a strict subdomain (`*.searchHost`); `other` for everything else,
including unparseable keys.  Hostname comparison strips a leading `www.`
from both sides. -/
def specClassifyUrl (sourceKey searchTerm : String) : UrlCategory :=
  if strStarts sourceKey "channel:" then UrlCategory.channel
  else
    match parseHttpUrl (toUrlArg sourceKey) with
    | none => UrlCategory.other
    | some u =>
        if stripWwwDot u.hostname = searchHostOf searchTerm then
          (if u.pathname = "/" ∨ u.pathname = "" then UrlCategory.exact
           else UrlCategory.subpath)
        else if strEnds (stripWwwDot u.hostname) ("." ++ searchHostOf searchTerm) then
          UrlCategory.subdomain
        else UrlCategory.other

/-! ### Claim theorems -/

/-- C6: `classifyUrl` follows the spec's precedence — channel keys are
`channel`; a parsed key with matching hostname is `exact` on an empty or
root path and `subpath` otherwise; a strict subdomain is `subdomain`;
everything else, including malformed URLs (on which the total function
never raises), is `other` — and it gives the spec's five example
classifications for the search term `example.com`. -/
theorem classifyUrl_follows_spec :
    (∀ k t, classifyUrl k t = specClassifyUrl k t)
    ∧ classifyUrl "example.com" "example.com" = UrlCategory.exact
    ∧ classifyUrl "example.com/blog" "example.com" = UrlCategory.subpath
    ∧ classifyUrl "sub.example.com" "example.com" = UrlCategory.subdomain
    ∧ classifyUrl "other.com" "example.com" = UrlCategory.other
    ∧ classifyUrl "channel:42" "example.com" = UrlCategory.channel
    ∧ classifyUrl "http://" "example.com" = UrlCategory.other := by
  refine ⟨?_, by decide, by decide, by decide, by decide, by decide, by decide⟩
  intro k t
  unfold classifyUrl specClassifyUrl
  cases hc : strStarts k "channel:"
  · cases hp : parseHttpUrl (toUrlArg k)
    · simp [hp]
    · rename_i u
      by_cases hh : stripWwwDot u.hostname = searchHostOf t
      · by_cases hpath : u.pathname = "/" ∨ u.pathname = ""
        · simp [hp, hh, hpath]
        · have hne : u.pathname ≠ "/" ∧ u.pathname ≠ "" := by
            constructor <;> intro hx <;> exact hpath (by simp [hx])
          simp [hp, hh, hne.1, hne.2]
      · simp [hp, hh]
  · simp

/-- C7: `sortGroupedResults` orders the classified groups ascending by the
sort key `(categoryPriority, groupKey)` with priorities exact=0, subpath=1,
channel=2, subdomain=3, other=4 and ties broken by the lexicographic order
on the key; its output is a permutation of the classified input (a pure
function of it — the model is deterministic by construction); on the keys
`[c.com, b.com, b.com/x]` with categories `[other, exact, subpath]` for the
search term `b.com` it yields `[b.com, b.com/x, c.com]`. -/
theorem sortGroupedResults_ordered :
    (∀ groups t, List.Sorted groupOrder (sortGroupedResults groups t))
    ∧ (∀ groups t,
        List.Perm (sortGroupedResults groups t)
          (groups.map fun p =>
            { key := p.1, results := p.2, category := classifyUrl p.1 t }))
    ∧ ((sortGroupedResults [("c.com", []), ("b.com", []), ("b.com/x", [])]
          "b.com").map ClassifiedGroup.key = ["b.com", "b.com/x", "c.com"])
    ∧ ((sortGroupedResults [("c.com", []), ("b.com", []), ("b.com/x", [])]
          "b.com").map ClassifiedGroup.category =
        [UrlCategory.exact, UrlCategory.subpath, UrlCategory.other]) := by
  refine ⟨?_, ?_, by decide, by decide⟩
  · intro groups t
    have h := sorted_stableSort groupLe groupLe_trans groupLe_total
      (groups.map fun p =>
        { key := p.1, results := p.2, category := classifyUrl p.1 t })
    exact h.imp (fun hab => (groupLe_iff _ _).mp hab)
  · intro groups t
    exact stableSort_perm groupLe _

/-- C3 (counterexample): two source URLs identical except for their query
strings do NOT get distinct group keys — `normalizeUrl` drops the query
string, so both items land in the group `example.com/a`. -/
theorem groupKey_preserves_query_counterexample :
    groupKeyFor (qRes "x=1") "0.1" = groupKeyFor (qRes "x=2") "0.2"
    ∧ (qRes "x=1").source_url ≠ (qRes "x=2").source_url
    ∧ normalizeUrl "example.com/a?x=1" = "example.com/a"
    ∧ normalizeUrl "example.com/a?x=2" = "example.com/a" := by
  refine ⟨by decide, by decide, by decide, by decide⟩

/-- C3 (amended): the grouping key of a URL-sourced item DROPS the query
string — any two URLs that parse to the same hostname and pathname
(in particular, two URLs identical except for their query strings) get the
same group key — while a leading `www.` and a single trailing slash are
still stripped. -/
theorem normalizeUrl_drops_query (s1 s2 : String) (u1 u2 : UrlParts)
    (h1 : s1 ≠ "") (h2 : s2 ≠ "")
    (hp1 : parseHttpUrl (toUrlArg s1) = some u1)
    (hp2 : parseHttpUrl (toUrlArg s2) = some u2)
    (hh : u1.hostname = u2.hostname) (hp : u1.pathname = u2.pathname) :
    normalizeUrl s1 = normalizeUrl s2 := by
  unfold normalizeUrl
  have c1 : ¬((s1 == "") = true) := by simp [h1]
  have c2 : ¬((s2 == "") = true) := by simp [h2]
  rw [if_neg c1, if_neg c2]
  simp only [hp1, hp2, hh, hp]

/-- Witness for C3's amended theorem at the two query-differing URLs. -/
theorem normalizeUrl_drops_query_witness :
    parseHttpUrl (toUrlArg "www.example.com/a/?x=1") =
        some ⟨"www.example.com", "/a/"⟩
    ∧ parseHttpUrl (toUrlArg "www.example.com/a/?x=2") =
        some ⟨"www.example.com", "/a/"⟩
    ∧ normalizeUrl "www.example.com/a/?x=1" = normalizeUrl "www.example.com/a/?x=2"
    ∧ normalizeUrl "www.example.com/a/?x=1" = "example.com/a" :=
  ⟨by decide, by decide,
    normalizeUrl_drops_query "www.example.com/a/?x=1" "www.example.com/a/?x=2"
      ⟨"www.example.com", "/a/"⟩ ⟨"www.example.com", "/a/"⟩
      (by decide) (by decide) (by decide) (by decide) rfl rfl,
    by decide⟩

/-- C4 (counterexample): a non-channel item with a usable permalink
(`href = /blocks/9`) but no source URL is NOT included — the display filter
drops it, so the claimed href fallback does not exist in the filter. -/
theorem showResults_filter_counterexample :
    showResultsFilter [{ emptyResult with href := some "/blocks/9" }] = []
    ∧ ({ emptyResult with href := some "/blocks/9" } : Result).href ≠ none
    ∧ ({ emptyResult with href := some "/blocks/9" } : Result).typename ≠ "Channel" := by
  refine ⟨by decide, by decide, by decide⟩

/-- C4 (amended): an item is excluded from grouping/display iff it is not a
channel and lacks a source URL (`source_url || source?.url`); the permalink
`href` plays no role in the filter — changing it never changes the
decision. -/
theorem showResultsFilter_source_only :
    (∀ rs r, r ∈ showResultsFilter rs ↔
      (r ∈ rs ∧ (r.typename = "Channel"
        ∨ (jsOr r.source_url r.sourceUrlNested).isSome = true)))
    ∧ (∀ r h, keepResult { r with href := h } = keepResult r) := by
  constructor
  · intro rs r
    unfold showResultsFilter
    rw [List.mem_filter]
    constructor
    · rintro ⟨hmem, hk⟩
      refine ⟨hmem, ?_⟩
      unfold keepResult at hk
      by_cases hc : (r.typename == "Channel") = true
      · exact Or.inl (by simpa using hc)
      · rw [if_neg hc] at hk
        exact Or.inr hk
    · rintro ⟨hmem, hk⟩
      refine ⟨hmem, ?_⟩
      unfold keepResult
      rcases hk with hk | hk
      · rw [if_pos (by simp [hk])]
      · by_cases hc : (r.typename == "Channel") = true
        · rw [if_pos hc]
        · rw [if_neg hc]
          exact hk
  · intro r h
    rfl

/-- Witness for C4's amended theorem at a concrete href-only item. -/
theorem showResultsFilter_source_only_witness :
    ({ emptyResult with href := some "/blocks/9" } : Result) ∈
        showResultsFilter [{ emptyResult with href := some "/blocks/9" }] ↔
      (({ emptyResult with href := some "/blocks/9" } : Result) ∈
          [({ emptyResult with href := some "/blocks/9" } : Result)]
        ∧ (({ emptyResult with href := some "/blocks/9" } : Result).typename = "Channel"
          ∨ (jsOr ({ emptyResult with href := some "/blocks/9" } : Result).source_url
              ({ emptyResult with href := some "/blocks/9" } : Result).sourceUrlNested).isSome = true)) :=
  showResultsFilter_source_only.1
    [{ emptyResult with href := some "/blocks/9" }]
    { emptyResult with href := some "/blocks/9" }

/-- C5 (counterexample): the id assigned during `addPageToCache` is NOT a
pure function of the item alone — for an item with no `/blocks/<n>` href
and no truthy `id`, the fallback consults `Math.random()`, so two runs on
the equal payload produce different ids. -/
theorem computeBlockId_impure_counterexample :
    computeBlockId emptyResult "0.1" ≠ computeBlockId emptyResult "0.2" := by
  decide

/-- C5 (amended): the id is a pure, deterministic function of the item
whenever the item has a stable identity — it is a channel, or its href
contains `/blocks/<digits>`, or it has a truthy `id`; only items with none
of these receive a `Math.random()`-derived id. -/
theorem computeBlockId_pure_of_stable (r : Result) (s s' : String)
    (h : hasStableId r = true) : computeBlockId r s = computeBlockId r s' :=
  computeBlockId_stable r h s s'

/-- Witness for C5's amended theorem at a concrete stable item. -/
theorem computeBlockId_pure_of_stable_witness :
    hasStableId (blockRes "7") = true
    ∧ computeBlockId (blockRes "7") "0.1" = computeBlockId (blockRes "7") "0.2" :=
  ⟨by decide, computeBlockId_pure_of_stable (blockRes "7") "0.1" "0.2" (by decide)⟩

/-- C1 (counterexample): calling `addPageToCache` twice in succession with
identical `(searchUrl, page, perPage, apiResponse)` can GROW the blocks
map: an item with no `/blocks/<n>` href and no truthy id gets a fresh
`Math.random()` id on each call, so the second call inserts it again. -/
theorem addPage_idempotent_counterexample :
    ((addPageToCache [] "e.com" 1 50 ⟨1, [emptyResult]⟩ (randConst "0.1") 100
        false false).1.blocks.length = 1)
    ∧ ((addPageToCache
          (addPageToCache [] "e.com" 1 50 ⟨1, [emptyResult]⟩ (randConst "0.1")
            100 false false).2
          "e.com" 1 50 ⟨1, [emptyResult]⟩ (randConst "0.2") 101
          false false).1.blocks.length = 2) := by
  refine ⟨by decide, by decide⟩

/-- C1 (amended): when every result of the response has a stable identity
(channel, `/blocks/<n>` href, or truthy id), a second `addPageToCache` call
with identical arguments leaves the blocks map exactly unchanged — same
size, same contents. -/
theorem addPageToCache_idempotent_of_stable
    (store : Store) (url : String) (page perPage : Nat) (resp : ApiResponse)
    (rand1 rand2 : Nat → String) (now1 now2 : Nat)
    (hstable : ∀ r ∈ resp.results, hasStableId r = true) :
    (addPageToCache
        (addPageToCache store url page perPage resp rand1 now1 false false).2
        url page perPage resp rand2 now2 false false).1.blocks =
      (addPageToCache store url page perPage resp rand1 now1 false false).1.blocks := by
  rw [addPageToCache_fst, addPageToCache_fst, mergePage_blocks]
  have hget := getSearchCache_after_add store url page perPage resp rand1 now1
  have hknd := mergePage_keysNodup store url page perPage resp rand1 now1
  have hob : oldBlocks
      (addPageToCache store url page perPage resp rand1 now1 false false).2 url =
      mapFromEntries (mergePage store url page perPage resp rand1 now1).blocks := by
    unfold oldBlocks
    rw [hget]
  rw [hob, mapFromEntries_eq_self _ hknd]
  apply addResultsAux_eq_of_all_has
  intro p hp
  obtain ⟨r, s⟩ := p
  have hr : r ∈ resp.results := mem_attachRands _ _ _ _ _ hp
  obtain ⟨s1, hs1⟩ := attachRands_mem_of_mem resp.results rand1 0 r hr
  have hhas : mapHas (mergePage store url page perPage resp rand1 now1).blocks
      (computeBlockId r s1) = true := by
    rw [mergePage_blocks]
    exact addResultsAux_has_of_mem _ _ r s1 hs1
  have hid : computeBlockId r s = computeBlockId r s1 :=
    computeBlockId_stable r (hstable r hr) s s1
  show mapHas _ (computeBlockId r s) = true
  rw [hid]
  exact hhas

/-- Witness for C1's amended theorem: double-adding a page holding one
stable block leaves the blocks map unchanged. -/
theorem addPageToCache_idempotent_witness :
    (∀ r ∈ (⟨1, [blockRes "7"]⟩ : ApiResponse).results, hasStableId r = true)
    ∧ (addPageToCache
          (addPageToCache [] "e.com" 1 50 ⟨1, [blockRes "7"]⟩ (randConst "0.1")
            100 false false).2
          "e.com" 1 50 ⟨1, [blockRes "7"]⟩ (randConst "0.2") 101
          false false).1.blocks =
        (addPageToCache [] "e.com" 1 50 ⟨1, [blockRes "7"]⟩ (randConst "0.1")
          100 false false).1.blocks :=
  ⟨by decide,
    addPageToCache_idempotent_of_stable [] "e.com" 1 50 ⟨1, [blockRes "7"]⟩
      (randConst "0.1") (randConst "0.2") 100 101 (by decide)⟩

/-- C2 (counterexample): a forced refresh does NOT reset `lastPage` and
`blocks` — merging the freshly fetched page 1 into a store whose cache has
`lastPage = 2` and one block yields `lastPage = 2` (not 1) and two blocks
(the old one is retained), because `clearSearchCache` is never invoked. -/
theorem forceRefresh_reset_counterexample :
    ((performSearchForceRefresh
        (addPageToCache [] "e.com" 2 50 ⟨4, [blockRes "2"]⟩ (randConst "0.1")
          100 false false).2
        "e.com" 50 ⟨4, [blockRes "9"]⟩ (randConst "0.2") 200).1.lastPage = 2)
    ∧ ((performSearchForceRefresh
          (addPageToCache [] "e.com" 2 50 ⟨4, [blockRes "2"]⟩ (randConst "0.1")
            100 false false).2
          "e.com" 50 ⟨4, [blockRes "9"]⟩ (randConst "0.2") 200).1.blocks.map
            Prod.fst = ["2", "9"])
    ∧ ((performSearchForceRefresh
          (addPageToCache [] "e.com" 2 50 ⟨4, [blockRes "2"]⟩ (randConst "0.1")
            100 false false).2
          "e.com" 50 ⟨4, [blockRes "9"]⟩ (randConst "0.2") 200).1.lastPage ≠ 1) := by
  refine ⟨by decide, by decide, by decide⟩

/-- C2 (amended): on an explicit user-requested refresh the refetch of
page 1 is indeed performed unconditionally (the stale-while-revalidate
early return requires `!forceRefresh`, and the page fetched is
`pageToFetch false none = 1`), but `lastPage` and `blocks` are NOT reset
first: the new page 1 is merged into the existing stored cache, so the
resulting `lastPage` is `max (old lastPage) 1` and every previously cached
block is retained. -/
theorem forceRefresh_unconditional_no_reset
    (store : Store) (url : String) (perPage : Nat) (resp : ApiResponse)
    (rand : Nat → String) (now : Nat) :
    pageToFetch false none = 1
    ∧ (performSearchForceRefresh store url perPage resp rand now).1.lastPage
        = max (oldLastPage store url) 1
    ∧ (∀ p ∈ oldBlocks store url,
        p ∈ (performSearchForceRefresh store url perPage resp rand now).1.blocks) := by
  refine ⟨rfl, ?_, ?_⟩
  · unfold performSearchForceRefresh
    rw [addPageToCache_fst, mergePage_lastPage]
    rfl
  · intro p hp
    unfold performSearchForceRefresh
    rw [addPageToCache_fst, mergePage_blocks]
    exact addResultsAux_preserves_mem _ _ p hp

/-- Witness for C2's amended theorem: the block cached from page 2 is still
present after the forced-refresh merge of page 1. -/
theorem forceRefresh_no_reset_witness :
    ("2", mkCachedBlock (blockRes "2") "2") ∈
      (performSearchForceRefresh
        (addPageToCache [] "e.com" 2 50 ⟨4, [blockRes "2"]⟩ (randConst "0.1")
          100 false false).2
        "e.com" 50 ⟨4, [blockRes "9"]⟩ (randConst "0.2") 200).1.blocks :=
  (forceRefresh_unconditional_no_reset
      (addPageToCache [] "e.com" 2 50 ⟨4, [blockRes "2"]⟩ (randConst "0.1")
        100 false false).2
      "e.com" 50 ⟨4, [blockRes "9"]⟩ (randConst "0.2") 200).2.2
    ("2", mkCachedBlock (blockRes "2") "2") (by decide)

/-- C8: every `addPageToCache` call sets `lastPage` to
`max lastPage pageNumber` (so it never decreases), and on a fresh cache,
merging page 2 before page 1 — with pairwise-distinct computed ids across
the two pages — yields `lastPage = 2` with the items of both pages present
in the blocks map. -/
theorem addPageToCache_out_of_order
    (store : Store) (url : String) (page perPage : Nat)
    (resp resp2 resp1 : ApiResponse) (rand rand2 rand1 : Nat → String)
    (now now2 now1 : Nat) (f1 f2 : Bool) :
    ((addPageToCache store url page perPage resp rand now f1 f2).1.lastPage
        = max (oldLastPage store url) page
      ∧ oldLastPage store url
          ≤ (addPageToCache store url page perPage resp rand now f1 f2).1.lastPage)
    ∧ (getSearchCache store url = none →
        (pairIds (attachRands resp2.results rand2 0)
          ++ pairIds (attachRands resp1.results rand1 0)).Nodup →
        ((addPageToCache
            (addPageToCache store url 2 perPage resp2 rand2 now2 false false).2
            url 1 perPage resp1 rand1 now1 false false).1.lastPage = 2
        ∧ (∀ r ∈ resp2.results, ∃ k b,
            (k, b) ∈ (addPageToCache
              (addPageToCache store url 2 perPage resp2 rand2 now2 false false).2
              url 1 perPage resp1 rand1 now1 false false).1.blocks ∧ b.raw = r)
        ∧ (∀ r ∈ resp1.results, ∃ k b,
            (k, b) ∈ (addPageToCache
              (addPageToCache store url 2 perPage resp2 rand2 now2 false false).2
              url 1 perPage resp1 rand1 now1 false false).1.blocks ∧ b.raw = r))) := by
  constructor
  · constructor
    · rw [addPageToCache_fst, mergePage_lastPage]
    · rw [addPageToCache_fst, mergePage_lastPage]
      exact Nat.le_max_left _ _
  · intro hnone hnd
    have hOB0 : oldBlocks store url = [] := by
      unfold oldBlocks
      rw [hnone]
    have hOL0 : oldLastPage store url = 0 := by
      unfold oldLastPage
      rw [hnone]
    have hget := getSearchCache_after_add store url 2 perPage resp2 rand2 now2
    have hknd := mergePage_keysNodup store url 2 perPage resp2 rand2 now2
    have hc1blocks : (mergePage store url 2 perPage resp2 rand2 now2).blocks =
        addResultsAux [] (attachRands resp2.results rand2 0) := by
      rw [mergePage_blocks, hOB0]
    have hOB1 : oldBlocks
        (addPageToCache store url 2 perPage resp2 rand2 now2 false false).2 url =
        (mergePage store url 2 perPage resp2 rand2 now2).blocks := by
      unfold oldBlocks
      rw [hget]
      exact mapFromEntries_eq_self _ hknd
    have hOL1 : oldLastPage
        (addPageToCache store url 2 perPage resp2 rand2 now2 false false).2 url =
        (mergePage store url 2 perPage resp2 rand2 now2).lastPage := by
      unfold oldLastPage
      rw [hget]
    have hfinal_blocks : (addPageToCache
        (addPageToCache store url 2 perPage resp2 rand2 now2 false false).2
        url 1 perPage resp1 rand1 now1 false false).1.blocks =
        addResultsAux (mergePage store url 2 perPage resp2 rand2 now2).blocks
          (attachRands resp1.results rand1 0) := by
      rw [addPageToCache_fst, mergePage_blocks, hOB1]
    have hnd2 : (pairIds (attachRands resp2.results rand2 0)).Nodup :=
      (List.nodup_append.mp hnd).1
    have hnd1 : (pairIds (attachRands resp1.results rand1 0)).Nodup :=
      (List.nodup_append.mp hnd).2.1
    have hdisj := (List.nodup_append.mp hnd).2.2
    refine ⟨?_, ?_, ?_⟩
    · rw [addPageToCache_fst, mergePage_lastPage, hOL1, mergePage_lastPage, hOL0]
      decide
    · intro r hr
      obtain ⟨s, hs⟩ := attachRands_mem_of_mem resp2.results rand2 0 r hr
      have hmem1 : (computeBlockId r s, mkCachedBlock r (computeBlockId r s)) ∈
          (mergePage store url 2 perPage resp2 rand2 now2).blocks := by
        rw [hc1blocks]
        exact addResultsAux_mem_insert _ [] r s hs rfl hnd2
      have hmem2 := addResultsAux_preserves_mem
        (attachRands resp1.results rand1 0) _ _ hmem1
      rw [← hfinal_blocks] at hmem2
      exact ⟨_, _, hmem2, rfl⟩
    · intro r hr
      obtain ⟨s, hs⟩ := attachRands_mem_of_mem resp1.results rand1 0 r hr
      have hkin1 : computeBlockId r s ∈ pairIds (attachRands resp1.results rand1 0) :=
        List.mem_map.mpr ⟨(r, s), hs, rfl⟩
      have hfresh : mapHas (mergePage store url 2 perPage resp2 rand2 now2).blocks
          (computeBlockId r s) = false := by
        cases hh : mapHas (mergePage store url 2 perPage resp2 rand2 now2).blocks
            (computeBlockId r s)
        · rfl
        · exfalso
          rw [hc1blocks] at hh
          rcases addResultsAux_has_subset _ [] _ hh with h0 | h0
          · simp [mapHas] at h0
          · exact hdisj h0 hkin1
      have hmem := addResultsAux_mem_insert _ _ r s hs hfresh hnd1
      rw [← hfinal_blocks] at hmem
      exact ⟨_, _, hmem, rfl⟩

/-- Witness for C8 at a fresh store: page 2 (block 2) before page 1
(block 1) ends with `lastPage = 2`. -/
theorem addPageToCache_out_of_order_witness :
    (addPageToCache
      (addPageToCache [] "e.com" 2 50 ⟨4, [blockRes "2"]⟩ (randConst "0.1")
        100 false false).2
      "e.com" 1 50 ⟨4, [blockRes "1"]⟩ (randConst "0.2") 101
      false false).1.lastPage = 2 :=
  ((addPageToCache_out_of_order [] "e.com" 1 50 ⟨4, [blockRes "1"]⟩
      ⟨4, [blockRes "2"]⟩ ⟨4, [blockRes "1"]⟩ (randConst "0.2") (randConst "0.1")
      (randConst "0.2") 101 100 101 false false).2 (by decide) (by decide)).1

/-- C9: a storage-quota failure in `addPageToCache` never reaches the
caller — the returned in-memory cache is the merged cache, identical to the
no-failure run, for every combination of first-write and retry failure; on
the first failure the write is retried exactly once against the pruned
store, and a second failure leaves just the pruned store (only logged);
pruning evicts exactly the least-recently-updated half of the collected
caches: `ceil(n/2)` entries, each with a timestamp no larger than any
surviving collected entry's. -/
theorem addPageToCache_quota_soft (store : Store) (url : String)
    (page perPage : Nat) (resp : ApiResponse) (rand : Nat → String) (now : Nat)
    (fail1 fail2 : Bool) :
    ((addPageToCache store url page perPage resp rand now fail1 fail2).1 =
      (addPageToCache store url page perPage resp rand now false false).1)
    ∧ ((addPageToCache store url page perPage resp rand now true true).2 =
        pruneOldestCaches store)
    ∧ ((addPageToCache store url page perPage resp rand now true false).2 =
        storeSet (pruneOldestCaches store)
          (cacheKeyPre ++ normalizeSearchUrl url)
          (StoreVal.ok
            (addPageToCache store url page perPage resp rand now fail1 fail2).1))
    ∧ ((evictedCacheKeys store).length = halfUp (scanCaches store).1.length)
    ∧ (∀ a ∈ evictedCacheKeys store,
        ∀ b ∈ (sortedCacheKeys store).drop (halfUp (sortedCacheKeys store).length),
          a.2 ≤ b.2) :=
  ⟨rfl, rfl, rfl, evictedCacheKeys_length store, evicted_le_kept store⟩

/-- Witness for C9: with both writes failing on a two-entry store, the
returned cache still equals the no-failure in-memory cache. -/
theorem addPageToCache_quota_soft_witness :
    (addPageToCache [("arena_search_v2_a", StoreVal.ok ⟨"a", 1, 1, 50, [], 5⟩),
        ("arena_search_v2_b", StoreVal.ok ⟨"b", 1, 1, 50, [], 9⟩)]
      "e.com" 1 50 ⟨1, [blockRes "7"]⟩ (randConst "0.1") 100 true true).1 =
    (addPageToCache [("arena_search_v2_a", StoreVal.ok ⟨"a", 1, 1, 50, [], 5⟩),
        ("arena_search_v2_b", StoreVal.ok ⟨"b", 1, 1, 50, [], 9⟩)]
      "e.com" 1 50 ⟨1, [blockRes "7"]⟩ (randConst "0.1") 100 false false).1 :=
  (addPageToCache_quota_soft _ "e.com" 1 50 ⟨1, [blockRes "7"]⟩ (randConst "0.1")
    100 true true).1

/-- C10: quota-triggered pruning is frame-preserving outside the
`arena_search_v2_` namespace — every key not bearing the search-cache
prefix (auth token, UI preferences, anything else) still maps to its
unchanged value after `pruneOldestCaches`. -/
theorem pruneOldestCaches_frame (store : Store) (k : String)
    (h : strStarts k cacheKeyPre = false) :
    storeGet (pruneOldestCaches store) k = storeGet store k := by
  unfold pruneOldestCaches
  rw [storeGet_foldl_remove_pairs (evictedCacheKeys store) _ k
      (evictedCacheKeys_pre store) h,
    storeGet_foldl_remove_str ((scanCaches store).2) store k
      (scanCaches_removed_pre store) h]

/-- Witness for C10: the auth-token key survives pruning of a store holding
it beside two caches and a corrupt cache entry. -/
theorem pruneOldestCaches_frame_witness :
    strStarts "arena_token" cacheKeyPre = false
    ∧ storeGet (pruneOldestCaches
        [("arena_token", StoreVal.bad "tok"),
         ("arena_search_v2_a", StoreVal.ok ⟨"a", 1, 1, 50, [], 5⟩),
         ("arena_search_v2_c", StoreVal.bad "corrupt"),
         ("arena_search_v2_b", StoreVal.ok ⟨"b", 1, 1, 50, [], 9⟩)])
        "arena_token" =
      storeGet
        [("arena_token", StoreVal.bad "tok"),
         ("arena_search_v2_a", StoreVal.ok ⟨"a", 1, 1, 50, [], 5⟩),
         ("arena_search_v2_c", StoreVal.bad "corrupt"),
         ("arena_search_v2_b", StoreVal.ok ⟨"b", 1, 1, 50, [], 9⟩)]
        "arena_token" :=
  ⟨by decide,
    pruneOldestCaches_frame
      [("arena_token", StoreVal.bad "tok"),
       ("arena_search_v2_a", StoreVal.ok ⟨"a", 1, 1, 50, [], 5⟩),
       ("arena_search_v2_c", StoreVal.bad "corrupt"),
       ("arena_search_v2_b", StoreVal.ok ⟨"b", 1, 1, 50, [], 9⟩)]
      "arena_token" (by decide)⟩

end Arena

